import Mathlib

/-!
# Shallow embedding of the 0xTinkertoy Scheduler library

This file embeds the ready-queue policies and event handlers of the
composable task-scheduler library (Sources/Scheduler) and proves or refutes
the frozen specification claims about them.

Conventions:
* C++ `Task*` parameters that may be null are embedded as `Option`;
  a task object itself is a record of its scheduling-relevant fields.
* Machine integers (`uint32_t`) are embedded as `Nat` with explicit
  reduction modulo `2^32` where the source can wrap.
* Policies mutate their internal queue; here every primitive returns its
  updated queue state alongside the dequeued task.
-/

namespace Sched

/-- Modulus of the `uint32_t` arithmetic used by task tick counters. -/
def u32Mod : Nat := 4294967296

/-- A prioritizable task as used by the single-queue policies:
an identity plus a rank (for `PrioritizableByPriority` tasks the rank is
`getPriority()`; larger rank = runs earlier). -/
structure STask where
  id : Nat
  rank : Nat
  deriving DecidableEq, Repr

/-- A quantizable, auto-mutable-priority task, embedding the fields of the
repository's `SimpleTask` (identifier, priority, remaining ticks).
`uint32_t` fields are kept as `Nat` below `2^32`. -/
structure QTask where
  id : Nat
  priority : Nat
  ticks : Nat
  deriving DecidableEq, Repr

/-- `SimpleTask::tick()`: `ticks -= 1` on a `uint32_t`, which wraps
around at zero. -/
def QTask.tick (t : QTask) : QTask :=
  { t with ticks := (t.ticks + (u32Mod - 1)) % u32Mod }

/-- `SimpleTask::hasUsedUpTimeAllotment()`: the counter is zero. -/
def QTask.hasUsedUpTimeAllotment (t : QTask) : Bool :=
  t.ticks == 0

/-- `SimpleTask::allocateTicks(ticks)`: the counter is reset. -/
def QTask.allocateTicks (t : QTask) (n : Nat) : QTask :=
  { t with ticks := n }

/-- `SimpleTask::demote()`: decrement the priority unless it is already at
the floor level 1. -/
def QTask.demote (t : QTask) : QTask :=
  if t.priority > 1 then { t with priority := t.priority - 1 } else t

/-- A scheduling-policy interface as consumed by the event handlers
(`Scheduler::Policy`): `next()` removes and returns a ready task (or none),
`ready(t)` inserts a task. The state type `σ` is the policy's queue. -/
structure PolicyI (σ τ : Type) where
  next : σ → Option τ × σ
  ready : σ → τ → σ

/-! ## FIFO policy (Policy/FIFO.hpp)

`Scheduler::Policies::FIFO::Normal::StlQueueImp` holds a `std::queue`;
`next()` returns null on an empty queue and otherwise pops the front;
`ready()` pushes at the back. (`LinkedListImp` dequeues the head of a
linked list and enqueues at the tail, with identical observable behavior.) -/

/-- `FIFO::Normal::StlQueueImp::next()`. -/
def fifoNext {α : Type} : List α → Option α × List α
  | [] => (none, [])
  | t :: q => (some t, q)

/-- `FIFO::Normal::StlQueueImp::ready(task)`. -/
def fifoReady {α : Type} (q : List α) (t : α) : List α :=
  q ++ [t]

/-- The FIFO policy packaged behind the policy interface. -/
def fifoPolicy {α : Type} : PolicyI (List α) α :=
  ⟨fifoNext, fifoReady⟩

/-! ## Prioritized single queue (Policy/PrioritizedSingleQueue.hpp)

`LinkedListImp` keeps a linked list sorted by rank (greater first) via
`LinkedList<Task>::insert(task, BridgedGreaterComparator)`; `next()` pops
the head. `StlPriorityQueueImp` keeps a `std::priority_queue` ordered by
`BridgedLessComparator`; `next()` takes `top()` and pops. -/

/-- Modelled from the spec: `LinkedList<Task>::insert(task, comp)` used by
`PrioritizedSingleQueue::Normal::LinkedListImp::ready` with the greater
comparator (the list class itself is an external header not in this
repository). Per the spec, `ready()` "inserts at the first position whose
rank is not greater than the incoming task's (stable insertion preserves
FCFS for ties)": the task is placed before the first node it strictly
outranks, hence after every node of greater or equal rank. The repository's
EDF test pins this tie behavior (equal deadlines resolve first-come,
first-served). -/
def llInsert (t : STask) : List STask → List STask
  | [] => [t]
  | h :: rest => if t.rank > h.rank then t :: h :: rest else h :: llInsert t rest

/-- `PrioritizedSingleQueue::Normal::LinkedListImp::next()`: null when the
list is empty, otherwise dequeue the head. -/
def psqNext : List STask → Option STask × List STask
  | [] => (none, [])
  | t :: q => (some t, q)

/-- The sequence of tasks produced by repeatedly calling the linked-list
policy's `next()` until it yields null (fueled by the queue length). -/
def psqDrain (l : List STask) : List STask :=
  psqDrainAux l.length l
where
  psqDrainAux : Nat → List STask → List STask
    | 0, _ => []
    | fuel + 1, q =>
      match psqNext q with
      | (none, _) => []
      | (some t, q1) => t :: psqDrainAux fuel q1

/-- Array read used by the binary-heap embedding (`operator[]` of the
underlying `std::vector`; out-of-range reads never happen on the traced
runs and default to a dummy task). -/
def hget (l : List STask) (i : Nat) : STask := l.getD i ⟨0, 0⟩

/-- GNU libstdc++ `std::__push_heap(first, holeIndex, topIndex = 0, value)`
(bits/stl_heap.h), the sift-up performed by `std::priority_queue::push`
with the bridged less-than-by-rank comparator: while the parent of the
hole compares less than the value, the parent slides down; the value is
finally stored at the hole. The hole index strictly decreases on every
iteration, so a fuel of `hole + 1` can never be exhausted; callers supply
at least that much. -/
def siftUp (fuel : Nat) (arr : List STask) (value : STask) (hole : Nat) :
    List STask :=
  match fuel with
  | 0 => arr.set hole value
  | fuel + 1 =>
    if 0 < hole ∧ (hget arr ((hole - 1) / 2)).rank < value.rank then
      siftUp fuel (arr.set hole (hget arr ((hole - 1) / 2))) value ((hole - 1) / 2)
    else
      arr.set hole value

/-- `StlPriorityQueueImp::ready(task)` = `std::priority_queue::push`:
append the task, then sift it up from the new last slot. -/
def pqReady (arr : List STask) (t : STask) : List STask :=
  siftUp (arr.length + 1) (arr ++ [t]) t arr.length

/-- The loop of GNU libstdc++ `std::__adjust_heap` (bits/stl_heap.h): the
hole travels down the heap, promoting the larger child (`secondChild`
points at the right child and steps back when the left child is not
smaller), until the hole has no right child inside `[0, len)`. Returns the
updated array, the hole index and the final `secondChild` value. The
`secondChild` index strictly increases below `(len - 1) / 2`, so a fuel of
`len + 1` can never be exhausted; callers supply that much. -/
def adjustLoop (fuel len : Nat) (arr : List STask) (hole sc : Nat) :
    List STask × Nat × Nat :=
  match fuel with
  | 0 => (arr, hole, sc)
  | fuel + 1 =>
    if sc < (len - 1) / 2 then
      let sc1 := 2 * (sc + 1)
      let sc2 := if (hget arr sc1).rank < (hget arr (sc1 - 1)).rank then sc1 - 1 else sc1
      adjustLoop fuel len (arr.set hole (hget arr sc2)) sc2 sc2
    else
      (arr, hole, sc)

/-- GNU libstdc++ `std::__adjust_heap(first, holeIndex = 0, len, value)`:
run the hole to the bottom, handle the dangling left child of an
even-length heap, then sift the saved value back up from the hole. -/
def adjustHeap (arr : List STask) (len : Nat) (value : STask) : List STask :=
  let (arr1, hole, sc) := adjustLoop (len + 1) len arr 0 0
  let step :=
    if len % 2 == 0 && sc == (len - 2) / 2 then
      let sc1 := 2 * (sc + 1)
      (arr1.set hole (hget arr1 (sc1 - 1)), sc1 - 1)
    else
      (arr1, hole)
  siftUp (step.2 + 1) step.1 value step.2

/-- `StlPriorityQueueImp::next()`: null on an empty queue; otherwise
return `top()` and `pop()`. `pop` is `std::pop_heap` (a no-op move for a
one-element heap) followed by `pop_back`: the last element is saved, the
top moves to the last slot, and `__adjust_heap` re-heapifies the prefix. -/
def pqNext (arr : List STask) : Option STask × List STask :=
  match arr with
  | [] => (none, [])
  | top :: rest =>
    if rest.isEmpty then (some top, [])
    else
      let n := arr.length
      let value := hget arr (n - 1)
      let arr1 := arr.set (n - 1) top
      let arr2 := adjustHeap arr1 (n - 1) value
      (some top, arr2.take (n - 1))

/-- The sequence of tasks produced by repeatedly calling the priority-queue
policy's `next()` until it yields null (fueled by the queue length). -/
def pqDrain (arr : List STask) : List STask :=
  pqDrainAux arr.length arr
where
  pqDrainAux : Nat → List STask → List STask
    | 0, _ => []
    | fuel + 1, q =>
      match pqNext q with
      | (none, _) => []
      | (some t, q1) => t :: pqDrainAux fuel q1

/-! ## Prioritized multi-queue (Policy/PrioritizedMultiQueue.hpp)

`ArrayMapImp` maps each priority level to a lazily created sub-policy
(`std::array<Policy*, Max + 1>`, null until first use); the sample
assemblies instantiate the maker with `PolicyMakers::DynamicFIFO`, so a
sub-queue is a FIFO linked list. The queues are embedded as a list whose
index is the priority level; `none` is a null slot and `some l` an
allocated FIFO sub-queue holding `l`. -/

/-- The sub-queue array slot at priority level `i` (null beyond the array,
which the source never indexes). -/
def subAt (qs : List (Option (List QTask))) (i : Nat) : Option (List QTask) :=
  qs.getD i none

/-- A slot that contributes no task to `next()`: null or an empty
sub-queue. -/
def slotEmpty (s : Option (List QTask)) : Prop :=
  s.getD [] = []

/-- The scan of `ArrayMapImp::next()` in iteration order (the input list
is the queue array reversed, i.e. highest priority level first): skip null
slots, call each sub-queue's `next()`, and stop at the first task. -/
def pmqScan : List (Option (List QTask)) → Option QTask × List (Option (List QTask))
  | [] => (none, [])
  | none :: rest =>
    let r := pmqScan rest
    (r.1, none :: r.2)
  | some [] :: rest =>
    let r := pmqScan rest
    (r.1, some [] :: r.2)
  | some (t :: q) :: rest => (some t, some q :: rest)

/-- `PrioritizedMultiQueue::Normal::ArrayMapImp::next()`: scan the
priority levels from the highest down to level 0 and return the first
sub-queue task found, null if none. -/
def pmqNext (qs : List (Option (List QTask))) :
    Option QTask × List (Option (List QTask)) :=
  let r := pmqScan qs.reverse
  (r.1, r.2.reverse)

/-- `PrioritizedMultiQueue::Normal::ArrayMapImp::ready(task)`: create the
sub-queue for `task->getPriority()` if the slot is still null, then
enqueue into that FIFO sub-queue. -/
def pmqReady (qs : List (Option (List QTask))) (t : QTask) :
    List (Option (List QTask)) :=
  let sub := (subAt qs t.priority).getD []
  qs.set t.priority (some (sub ++ [t]))

/-- Modelled from the spec: `adjustPosition(task, oldPriority)` — declared
by the `SupportsAdjustingTaskPriority` concept and called by the
priority-changed handler, with no implementation under the repository's
sources. Per the spec it "removes `t` from `queues[old]` and inserts into
`queues[t.priority()]`"; removal takes the (pointer-identical) task out of
the old sub-queue, identity embedded as the task id. -/
def pmqAdjustPosition (qs : List (Option (List QTask))) (t : QTask) (old : Nat) :
    List (Option (List QTask)) :=
  let qs1 :=
    match subAt qs old with
    | none => qs
    | some l => qs.set old (some (l.eraseP (fun x => x.id == t.id)))
  pmqReady qs1 t

/-- The scan of `StlMapImp::next()`: a `std::map` keyed by priority with
the `std::greater` comparator iterates highest key first, so the map is
embedded as an association list sorted strictly descending by key;
`next()` returns the first sub-queue task found, null if none. -/
def smNext : List (Nat × List QTask) → Option QTask × List (Nat × List QTask)
  | [] => (none, [])
  | (k, []) :: rest =>
    let r := smNext rest
    (r.1, (k, []) :: r.2)
  | (k, t :: q) :: rest => (some t, (k, q) :: rest)

/-- `PrioritizedMultiQueue::Normal::StlMapImp::ready(task)`: `operator[]`
materializes the entry for the task's priority (default null, then a FIFO
policy is created) keeping the descending key order, and the task joins
that sub-queue. -/
def smReady : List (Nat × List QTask) → QTask → List (Nat × List QTask)
  | [], t => [(t.priority, [t])]
  | (k, l) :: rest, t =>
    if t.priority > k then (t.priority, [t]) :: (k, l) :: rest
    else if t.priority == k then (k, l ++ [t]) :: rest
    else (k, l) :: smReady rest t

/-! ## Event handlers

Each handler is a decision function: it consults/mutates the policy queue
and returns the task pointer to dispatch (null only on intermediate
calls). Handlers generic in the policy take a `PolicyI` record, mirroring
the `self->next()` / `self->ready()` calls through the concrete
scheduler. -/

/-- `TaskTermination::Common::RunNextWithIdleTaskSupport::onTaskFinished`:
dequeue the next ready task; if that is null, return the idle task. -/
def ttRunNextIdle {σ τ : Type} (P : PolicyI σ τ) (idle : τ) (s : σ) :
    Option τ × σ :=
  let r := P.next s
  (match r.1 with
   | none => some idle
   | some t => some t, r.2)

/-- `TimerInterrupt::Preemptive::RunNextWithIdleTaskSupport::onTimerInterrupt`:
enqueue `current` unless it is the idle task, then dequeue the next ready
task, falling back to the idle task when the queue yields null. -/
def tiRunNextIdle {σ τ : Type} [DecidableEq τ] (P : PolicyI σ τ) (idle : τ)
    (s : σ) (current : τ) : Option τ × σ :=
  let s1 := if current = idle then s else P.ready s current
  let r := P.next s1
  (match r.1 with
   | none => some idle
   | some t => some t, r.2)

/-- `TaskYielding::Common::RunNext::onTaskYielded` with the FIFO policy
(`StlQueueImp`): enqueue the yielded task, then dequeue the next ready
task. -/
def tyRunNext {τ : Type} (q : List τ) (current : τ) : Option τ × List τ :=
  fifoNext (fifoReady q current)

/-- Removal of a killed task from the policy queue. Modelled from the
spec: `remove(t)` is declared by the `SupportsRemovingTasks` concept and
called by the killed handler, with no implementation under the
repository's sources; per the spec it removes that specific task from the
queue (pre-condition: present). Applied to a null task pointer it is never
reached. -/
def removeOpt {τ : Type} [DecidableEq τ] (q : List τ) : Option τ → List τ
  | none => q
  | some t => q.erase t

/-- `TaskKilled::Common::KeepRunningCurrent::onTaskKilled`: assert
`current != task` (modelled as an `Except.error` for the `passert` abort);
on an intermediate call (`current` null) remove `task` and return null;
on a terminating call remove `task` when non-null and keep `current`
running. -/
def tkKeepRunningCurrent {τ : Type} [DecidableEq τ] (q : List τ)
    (current task : Option τ) : Except Unit (Option τ × List τ) :=
  if current = task then Except.error ()
  else if current = none then Except.ok (none, removeOpt q task)
  else Except.ok (current, removeOpt q task)

/-- `TaskUnblocked::Cooperative::KeepRunningCurrentWithIdleTaskSupport::onTaskUnblocked`
restricted to terminating calls with both arguments non-null (the two
null-guard branches fall through), with the FIFO policy of the sample
assemblies: enqueue the unblocked task; if `current` is the idle task
dequeue the next ready task, otherwise keep `current` running. -/
def tubCoopIdle {τ : Type} [DecidableEq τ] (q : List τ) (idle current task : τ) :
    Option τ × List τ :=
  let q1 := fifoReady q task
  if current = idle then fifoNext q1 else (some current, q1)

/-- `TaskPriorityChanged::Preemptive::Balance::onTaskPriorityChanged`
(non-null `current` and `task`): re-home `task` from its old priority
level, then — when `task`'s priority exceeds `current`'s — enqueue
`current` and dispatch `next()`; otherwise keep `current` running. -/
def tpcBalance (qs : List (Option (List QTask))) (current task : QTask)
    (old : Nat) : Option QTask × List (Option (List QTask)) :=
  let qs1 := pmqAdjustPosition qs task old
  if task.priority > current.priority then
    pmqNext (pmqReady qs1 current)
  else
    (some current, qs1)

/-- `TaskQuantumUsedUp::Preemptive::RunNextWithDemotionAndQuantumRecharged::onTaskQuantumUsedUp`:
demote the current task, reallocate its ticks from the quantum specifier
at its new priority, enqueue it, and dispatch `next()`. -/
def tqRunNextDemoteRecharge {σ : Type} (P : PolicyI σ QTask)
    (spec : Nat → Nat) (s : σ) (current : QTask) : Option QTask × σ :=
  let c1 := current.demote
  let c2 := c1.allocateTicks (spec c1.priority)
  P.next (P.ready s c2)

/-- The transformation the spec prescribes for the demote-and-recharge
handler, stated from its words for comparison with the embedded handler:
the task demoted exactly once, holding the number of ticks the quantum
specifier assigns to the post-demotion priority. -/
def demotedOnceRecharged (spec : Nat → Nat) (t : QTask) : QTask :=
  ⟨t.id, t.demote.priority, spec t.demote.priority⟩

/-! ## The multilevel feedback queue configuration

`SampleSchedulers::MultilevelFeedbackQueue` combines the array multi-queue
(FIFO sub-queues) wrapped with the `PriorityBasedTaskQuantumAllocator`
enqueue extension, and the timer-interrupt handler
`KeepRunningCurrentWithAutoDemotionOnQuantumUsedUpAndIdleTaskSupport`
(= `KeepRunningCurrentWithAnyQuantumUsedUpHandlerAndIdleTaskSupport`
composed with `TaskQuantumUsedUp::Preemptive::RunNextWithDemotion`). -/

/-- The MLFQ `ready()`: the enqueue extension first allocates
`spec(task->getPriority())` ticks, then the base multi-queue enqueues. -/
def mlfqReady (spec : Nat → Nat) (qs : List (Option (List QTask)))
    (t : QTask) : List (Option (List QTask)) :=
  pmqReady qs (t.allocateTicks (spec t.priority))

/-- `TaskQuantumUsedUp::Preemptive::RunNextWithDemotion::onTaskQuantumUsedUp`
inside the MLFQ assembly: demote the current task, enqueue it (through
the quantum-allocating extension), and dispatch `next()`. -/
def mlfqQuantumUsedUp (spec : Nat → Nat) (qs : List (Option (List QTask)))
    (current : QTask) : Option QTask × List (Option (List QTask)) :=
  pmqNext (mlfqReady spec qs current.demote)

/-- `TimerInterrupt::Preemptive::KeepRunningCurrentWithAnyQuantumUsedUpHandlerAndIdleTaskSupport::onTimerInterrupt`
in the MLFQ assembly. If `current` is the idle task (pointer identity,
embedded as the task identifier) the queue is polled and the idle task
returned when it is empty; otherwise `current` is ticked and either keeps
running or is handed to the quantum-used-up handler. -/
def mlfqOnTimerInterrupt (spec : Nat → Nat) (qs : List (Option (List QTask)))
    (idle current : QTask) : Option QTask × List (Option (List QTask)) :=
  if current.id = idle.id then
    let r := pmqNext qs
    (match r.1 with
     | none => some idle
     | some t => some t, r.2)
  else
    let c := current.tick
    if c.hasUsedUpTimeAllotment then mlfqQuantumUsedUp spec qs c
    else (some c, qs)

/-- `k` consecutive timer interrupts delivered to the same running task:
after each interrupt the kernel switches to the returned (non-null) task,
which receives the next interrupt. -/
def mlfqRun (spec : Nat → Nat) (idle : QTask) :
    Nat → List (Option (List QTask)) × QTask → List (Option (List QTask)) × QTask
  | 0, s => s
  | k + 1, (qs, cur) =>
    let r := mlfqOnTimerInterrupt spec qs idle cur
    mlfqRun spec idle k (r.2, r.1.getD idle)

/-- `SimpleTask::QuantumSpecifier` from the repository's MLFQ test
configuration: one tick at level 3, two ticks at level 2, effectively
infinite (`UINT32_MAX`) ticks at level 1. Levels 0 and above 3 abort
(`pfatal`) in the source and are never queried on the traced runs. -/
def qspecSimple : Nat → Nat
  | 1 => u32Mod - 1
  | 2 => 2
  | 3 => 1
  | _ => 0

/-- Every slot of the queue array is null or holds an empty sub-queue. -/
def allEmpty (qs : List (Option (List QTask))) : Prop :=
  ∀ s ∈ qs, slotEmpty s

/-! ## Helper lemmas -/

theorem fifoNext_append_singleton {α : Type} (q : List α) (t : α) :
    fifoNext (q ++ [t]) = ((q ++ [t]).head?, (q ++ [t]).tail) := by
  cases q <;> rfl

theorem subAt_lt_length {qs : List (Option (List QTask))} {i : Nat} {v}
    (h : subAt qs i = some v) : i < qs.length := by
  by_contra hge
  rw [subAt, List.getD_eq_default _ _ (by omega)] at h
  exact Option.noConfusion h

theorem subAt_set_self {qs : List (Option (List QTask))} {i : Nat} {v}
    (h : i < qs.length) : subAt (qs.set i v) i = v := by
  rw [subAt, List.getD_eq_getElem?_getD, List.getElem?_set_self (by omega)]
  rfl

theorem subAt_set_ne {qs : List (Option (List QTask))} {i j : Nat} {v}
    (h : i ≠ j) : subAt (qs.set i v) j = subAt qs j := by
  rw [subAt, subAt, List.getD_eq_getElem?_getD, List.getD_eq_getElem?_getD,
    List.getElem?_set_ne h]

theorem pmqScan_fst_eq_none_iff (l : List (Option (List QTask))) :
    (pmqScan l).1 = none ↔ ∀ s ∈ l, slotEmpty s := by
  induction l with
  | nil => simp [pmqScan]
  | cons hd tl ih =>
    match hd with
    | none => simpa [pmqScan, slotEmpty] using ih
    | some [] => simpa [pmqScan, slotEmpty] using ih
    | some (t :: q) => simp [pmqScan, slotEmpty]

theorem pmqScan_snd_of_none {l : List (Option (List QTask))}
    (h : (pmqScan l).1 = none) : (pmqScan l).2 = l := by
  induction l with
  | nil => rfl
  | cons hd tl ih =>
    match hd with
    | none =>
      simp only [pmqScan] at h ⊢
      rw [ih h]
    | some [] =>
      simp only [pmqScan] at h ⊢
      rw [ih h]
    | some (t :: q) => simp [pmqScan] at h

theorem pmqScan_append {l1 l2 : List (Option (List QTask))} {t : QTask}
    {q : List QTask} (h : ∀ s ∈ l1, slotEmpty s) :
    pmqScan (l1 ++ some (t :: q) :: l2) = (some t, l1 ++ some q :: l2) := by
  induction l1 with
  | nil => rfl
  | cons hd tl ih =>
    have hhd : slotEmpty hd := h hd (List.mem_cons_self hd tl)
    have htl : ∀ s ∈ tl, slotEmpty s := fun s hs => h s (List.mem_cons_of_mem hd hs)
    match hd with
    | none => simp [pmqScan, ih htl]
    | some [] => simp [pmqScan, ih htl]
    | some (x :: xs) => simp [slotEmpty] at hhd

/-- The `next()` of the array multi-queue returns the head of the sub-queue
at level `i` (removing it) as soon as every level above `i` is null or
empty. -/
theorem pmqNext_at_top {qs : List (Option (List QTask))} {i : Nat}
    {t : QTask} {q : List QTask} (hi : subAt qs i = some (t :: q))
    (htop : ∀ j, i < j → slotEmpty (subAt qs j)) :
    pmqNext qs = (some t, qs.set i (some q)) := by
  have hlen : i < qs.length := subAt_lt_length hi
  have hqs : qs = qs.take i ++ some (t :: q) :: qs.drop (i + 1) := by
    conv_lhs => rw [← List.take_append_drop i qs]
    congr 1
    rw [List.drop_eq_getElem_cons hlen]
    congr 1
    have h1 := hi
    rw [subAt, List.getD_eq_getElem?_getD, List.getElem?_eq_getElem hlen] at h1
    simpa using h1
  have hset : qs.set i (some q) = qs.take i ++ some q :: qs.drop (i + 1) := by
    rw [List.set_eq_take_append_cons_drop]
    simp [hlen]
  have hdropEmpty : ∀ s ∈ qs.drop (i + 1), slotEmpty s := by
    intro s hs
    obtain ⟨k, hk, hget⟩ := List.mem_iff_getElem.mp hs
    have hklen : i + 1 + k < qs.length := by
      have := hk
      simp only [List.length_drop] at this
      omega
    have hidx : qs[i + 1 + k] = s := by
      rw [← hget, List.getElem_drop]
    have hsub : subAt qs (i + 1 + k) = s := by
      rw [subAt, List.getD_eq_getElem?_getD, List.getElem?_eq_getElem hklen]
      simpa using hidx
    have := htop (i + 1 + k) (by omega)
    rwa [hsub] at this
  have hrev : qs.reverse = (qs.drop (i + 1)).reverse ++ some (t :: q) :: (qs.take i).reverse := by
    conv_lhs => rw [hqs]
    simp
  rw [pmqNext, hrev,
    pmqScan_append (fun s hs => hdropEmpty s (List.mem_reverse.mp hs))]
  simp [hset]

theorem smNext_fst_eq_none_iff (m : List (Nat × List QTask)) :
    (smNext m).1 = none ↔ ∀ e ∈ m, e.2 = [] := by
  induction m with
  | nil => simp [smNext]
  | cons hd tl ih =>
    match hd with
    | (k, []) => simpa [smNext] using ih
    | (k, t :: q) => simp [smNext]

theorem smNext_append {m1 m2 : List (Nat × List QTask)} {k : Nat} {t : QTask}
    {q : List QTask} (h : ∀ e ∈ m1, e.2 = []) :
    smNext (m1 ++ (k, t :: q) :: m2) = (some t, m1 ++ (k, q) :: m2) := by
  induction m1 with
  | nil => rfl
  | cons hd tl ih =>
    have hhd : hd.2 = [] := h hd (List.mem_cons_self hd tl)
    have htl : ∀ e ∈ tl, e.2 = [] := fun e he => h e (List.mem_cons_of_mem hd he)
    match hd with
    | (k1, l1) =>
      simp only at hhd
      subst hhd
      simp [smNext, ih htl]

theorem subAt_none_of_le {qs : List (Option (List QTask))} {j : Nat}
    (h : qs.length ≤ j) : subAt qs j = none := by
  rw [subAt, List.getD_eq_default _ _ h]

theorem subAt_mem {qs : List (Option (List QTask))} {i : Nat}
    (h : i < qs.length) : subAt qs i ∈ qs := by
  rw [subAt, List.getD_eq_getElem?_getD, List.getElem?_eq_getElem h]
  exact List.getElem_mem h

theorem allEmpty_subAt {qs : List (Option (List QTask))} (hE : allEmpty qs)
    (j : Nat) : slotEmpty (subAt qs j) := by
  by_cases hj : j < qs.length
  · exact hE _ (subAt_mem hj)
  · rw [subAt_none_of_le (by omega)]
    rfl

theorem allEmpty_set_empty {qs : List (Option (List QTask))} (hE : allEmpty qs)
    (i : Nat) : allEmpty (qs.set i (some [])) := by
  intro s hs
  rcases List.mem_or_eq_of_mem_set hs with hmem | heq
  · exact hE s hmem
  · rw [heq]
    rfl

/-- A queue array whose slots are all null has every sub-queue empty. -/
theorem allEmpty_of_all_none {qs : List (Option (List QTask))}
    (h : ∀ s ∈ qs, s = none) : allEmpty qs := by
  intro s hs
  rw [h s hs]
  rfl

/-- When every sub-queue is empty, enqueuing one task (at an in-range
level) and calling `next()` dequeues exactly that task, leaving all
sub-queues empty again. -/
theorem pmq_ready_next_allEmpty {qs : List (Option (List QTask))}
    (hE : allEmpty qs) {t : QTask} (hi : t.priority < qs.length) :
    pmqNext (pmqReady qs t) = (some t, qs.set t.priority (some [])) := by
  have hsub : (subAt qs t.priority).getD [] = [] := hE _ (subAt_mem hi)
  have hready : pmqReady qs t = qs.set t.priority (some [t]) := by
    rw [pmqReady, hsub]
    rw [List.nil_append]
  rw [hready]
  have hsubi : subAt (qs.set t.priority (some [t])) t.priority = some (t :: []) :=
    subAt_set_self (by simpa using hi)
  have hnext := pmqNext_at_top hsubi (by
    intro j hj
    rw [subAt_set_ne (by omega)]
    exact allEmpty_subAt hE j)
  rw [hnext, List.set_set]

theorem tick_pred {t : QTask} (h1 : 1 ≤ t.ticks) (h2 : t.ticks < u32Mod) :
    t.tick = ⟨t.id, t.priority, t.ticks - 1⟩ := by
  have hpos : 0 < u32Mod := by decide
  have hsum : t.ticks + (u32Mod - 1) = (t.ticks - 1) + u32Mod := by omega
  rw [QTask.tick, hsum, Nat.add_mod_right, Nat.mod_eq_of_lt (by omega)]

/-- One MLFQ timer interrupt when the running task still holds at least
two ticks: the counter decrements and the task keeps running. -/
theorem mlfq_step_keep {spec : Nat → Nat} {qs : List (Option (List QTask))}
    {idle cur : QTask} (hid : cur.id ≠ idle.id) (h2 : 2 ≤ cur.ticks)
    (hlt : cur.ticks < u32Mod) :
    mlfqOnTimerInterrupt spec qs idle cur =
      (some ⟨cur.id, cur.priority, cur.ticks - 1⟩, qs) := by
  rw [mlfqOnTimerInterrupt, if_neg hid, tick_pred (by omega) hlt]
  show (if (⟨cur.id, cur.priority, cur.ticks - 1⟩ : QTask).hasUsedUpTimeAllotment = true
      then mlfqQuantumUsedUp spec qs ⟨cur.id, cur.priority, cur.ticks - 1⟩
      else (some ⟨cur.id, cur.priority, cur.ticks - 1⟩, qs)) = _
  rw [if_neg (by
    rw [QTask.hasUsedUpTimeAllotment]
    simp only [beq_iff_eq]
    omega)]

/-- One MLFQ timer interrupt on the last tick with an otherwise empty
queue: the task is demoted, recharged with the quantum of its new level by
the enqueue extension, and immediately dispatched again. -/
theorem mlfq_step_demote {spec : Nat → Nat} {qs : List (Option (List QTask))}
    {idle cur : QTask} (hid : cur.id ≠ idle.id) (h1 : cur.ticks = 1)
    (hE : allEmpty qs) (hlen : cur.demote.priority < qs.length) :
    mlfqOnTimerInterrupt spec qs idle cur =
      (some ⟨cur.id, cur.demote.priority, spec cur.demote.priority⟩,
       qs.set cur.demote.priority (some [])) := by
  have hlt : cur.ticks < u32Mod := by rw [h1]; decide
  rw [mlfqOnTimerInterrupt, if_neg hid, tick_pred (by omega) hlt, h1]
  show (if (⟨cur.id, cur.priority, 1 - 1⟩ : QTask).hasUsedUpTimeAllotment = true
      then mlfqQuantumUsedUp spec qs ⟨cur.id, cur.priority, 1 - 1⟩
      else (some ⟨cur.id, cur.priority, 1 - 1⟩, qs)) = _
  rw [if_pos (show (⟨cur.id, cur.priority, 1 - 1⟩ : QTask).hasUsedUpTimeAllotment = true from rfl)]
  show mlfqQuantumUsedUp spec qs ⟨cur.id, cur.priority, 0⟩ = _
  rw [mlfqQuantumUsedUp, mlfqReady]
  have hdem : (QTask.demote ⟨cur.id, cur.priority, 0⟩) =
      ⟨cur.id, cur.demote.priority, 0⟩ := by
    rw [QTask.demote, QTask.demote]
    split <;> rfl
  rw [hdem]
  have halloc : (QTask.allocateTicks ⟨cur.id, cur.demote.priority, 0⟩
      (spec (⟨cur.id, cur.demote.priority, 0⟩ : QTask).priority)) =
      ⟨cur.id, cur.demote.priority, spec cur.demote.priority⟩ := rfl
  rw [halloc]
  exact pmq_ready_next_allEmpty hE hlen

/-- The state after `k` consecutive MLFQ timer interrupts delivered to a
solo task (empty ready queue, constant quantum `q`, current ticks `tk`):
the task is demoted once each time its running quantum drains, and its
ticks are recharged to `q` by the enqueue extension at each demotion. -/
theorem mlfqRun_solo (q : Nat) (idle : QTask) (hq : 1 ≤ q) (hqlt : q < u32Mod)
    (hid : idle.id ≠ 1) :
    ∀ (k p tk : Nat) (qs : List (Option (List QTask))),
      1 ≤ p → p < qs.length → allEmpty qs → 1 ≤ tk → tk ≤ q →
      (mlfqRun (fun _ => q) idle k (qs, ⟨1, p, tk⟩)).2 =
        ⟨1, if k < tk then p else max 1 (p - ((k - tk) / q + 1)),
            if k < tk then tk - k else q - (k - tk) % q⟩
      ∧ allEmpty (mlfqRun (fun _ => q) idle k (qs, ⟨1, p, tk⟩)).1
      ∧ (mlfqRun (fun _ => q) idle k (qs, ⟨1, p, tk⟩)).1.length = qs.length := by
  intro k
  induction k with
  | zero =>
    intro p tk qs hp hplen hE htk1 htkq
    refine ⟨?_, hE, rfl⟩
    rw [mlfqRun, if_pos (by omega), if_pos (by omega)]
    simp
  | succ k ih =>
    intro p tk qs hp hplen hE htk1 htkq
    by_cases h2 : 2 ≤ tk
    · have hstep : mlfqOnTimerInterrupt (fun _ => q) qs idle ⟨1, p, tk⟩ =
          (some ⟨1, p, tk - 1⟩, qs) :=
        mlfq_step_keep (by show (1 : Nat) ≠ idle.id; exact fun h => hid h.symm)
          (by show 2 ≤ tk; omega) (by show tk < u32Mod; omega)
      have hrun : mlfqRun (fun _ => q) idle (k + 1) (qs, ⟨1, p, tk⟩) =
          mlfqRun (fun _ => q) idle k (qs, ⟨1, p, tk - 1⟩) := by
        rw [mlfqRun, hstep]
        rfl
      rw [hrun]
      obtain ⟨h1, h2e, h3⟩ := ih p (tk - 1) qs hp hplen hE (by omega) (by omega)
      refine ⟨?_, h2e, h3⟩
      rw [h1]
      by_cases hcase : k + 1 < tk
      · rw [if_pos (by omega), if_pos (by omega), if_pos hcase, if_pos hcase]
        have hticks : tk - 1 - k = tk - (k + 1) := by omega
        rw [hticks]
      · rw [if_neg (by omega), if_neg (by omega), if_neg hcase, if_neg hcase]
        have hsub : k - (tk - 1) = k + 1 - tk := by omega
        rw [hsub]
    · have htk : tk = 1 := by omega
      subst htk
      have hdp : (QTask.demote ⟨1, p, 1⟩).priority = if p > 1 then p - 1 else p := by
        rw [QTask.demote]
        split <;> rfl
      have hdp1 : 1 ≤ (QTask.demote ⟨1, p, 1⟩).priority := by rw [hdp]; split <;> omega
      have hdplen : (QTask.demote ⟨1, p, 1⟩).priority < qs.length := by
        rw [hdp]; split <;> omega
      have hstep : mlfqOnTimerInterrupt (fun _ => q) qs idle ⟨1, p, 1⟩ =
          (some ⟨1, (QTask.demote ⟨1, p, 1⟩).priority, q⟩,
           qs.set (QTask.demote ⟨1, p, 1⟩).priority (some [])) :=
        mlfq_step_demote (by show (1 : Nat) ≠ idle.id; exact fun h => hid h.symm)
          rfl hE hdplen
      have hrun : mlfqRun (fun _ => q) idle (k + 1) (qs, ⟨1, p, 1⟩) =
          mlfqRun (fun _ => q) idle k
            (qs.set (QTask.demote ⟨1, p, 1⟩).priority (some []),
             ⟨1, (QTask.demote ⟨1, p, 1⟩).priority, q⟩) := by
        rw [mlfqRun, hstep]
        rfl
      rw [hrun]
      obtain ⟨h1, h2e, h3⟩ := ih (QTask.demote ⟨1, p, 1⟩).priority q
        (qs.set (QTask.demote ⟨1, p, 1⟩).priority (some []))
        hdp1 (by simpa using hdplen) (allEmpty_set_empty hE _) hq le_rfl
      refine ⟨?_, h2e, by simpa using h3⟩
      rw [h1]
      have hknot : ¬ (k + 1 < 1) := by omega
      rw [if_neg hknot, if_neg hknot]
      have hsimp : k + 1 - 1 = k := by omega
      rw [hsimp]
      by_cases hkq : k < q
      · rw [if_pos hkq, if_pos hkq]
        have hkdiv : k / q = 0 := Nat.div_eq_of_lt hkq
        have hkmod : k % q = k := Nat.mod_eq_of_lt hkq
        have hpr : (if p > 1 then p - 1 else p) = max 1 (p - (0 + 1)) := by
          rcases Nat.lt_or_ge 1 p with hp1 | hp1
          · rw [if_pos hp1]
            have h01 : p - (0 + 1) = p - 1 := by omega
            rw [h01, Nat.max_eq_right (by omega)]
          · rw [if_neg (by omega)]
            have hp1e : p = 1 := by omega
            subst hp1e
            rw [show (1 : Nat) - (0 + 1) = 0 by omega, Nat.max_eq_left (Nat.zero_le 1)]
        rw [hdp, hkdiv, hkmod, hpr]
      · rw [if_neg hkq, if_neg hkq]
        have hcancel : k - q + q = k := Nat.sub_add_cancel (by omega)
        have hdiv : k / q = (k - q) / q + 1 := by
          conv_lhs => rw [← hcancel]
          rw [Nat.add_div_right _ (by omega)]
        have hmod : k % q = (k - q) % q := by
          conv_lhs => rw [← hcancel]
          rw [Nat.add_mod_right]
        have hpr : max 1 ((if p > 1 then p - 1 else p) - ((k - q) / q + 1)) =
            max 1 (p - (k / q + 1)) := by
          rw [hdiv]
          rcases Nat.lt_or_ge 1 p with hp1 | hp1
          · rw [if_pos hp1]
            have hadd : 1 + ((k - q) / q + 1) = (k - q) / q + 1 + 1 :=
              Nat.add_comm 1 ((k - q) / q + 1)
            rw [Nat.sub_sub, hadd]
          · rw [if_neg (by omega)]
            have hp1e : p = 1 := by omega
            subst hp1e
            have hz1 : (1 : Nat) - ((k - q) / q + 1) = 0 :=
              Nat.sub_eq_zero_of_le (Nat.le_add_left 1 _)
            have hz2 : (1 : Nat) - ((k - q) / q + 1 + 1) = 0 :=
              Nat.sub_eq_zero_of_le (Nat.le_add_left 1 _)
            rw [hz1, hz2]
        rw [hdp, hmod, hpr]

/-! ## Claim theorems -/

/-- Claim C1: in the prioritized multi-queue policies (`ArrayMapImp` and
`StlMapImp`), `next()` yields null exactly when every sub-queue is empty,
and when some sub-queue is non-empty it removes and returns the head task
of the non-empty sub-queue of the highest priority level — so no task is
returned while a ready task of a strictly higher level exists. For the
map-based variant the association list is sorted strictly descending by
priority key, the iteration order of `std::map` with `std::greater`. -/
theorem C1_multiqueue_next_highest_first :
    ∀ (qs : List (Option (List QTask))),
      ((pmqNext qs).1 = none ↔ allEmpty qs)
      ∧ (∀ i t q, subAt qs i = some (t :: q) →
          (∀ j, i < j → slotEmpty (subAt qs j)) →
          pmqNext qs = (some t, qs.set i (some q)))
      ∧ ∀ (m : List (Nat × List QTask)), List.Pairwise (fun a b => a.1 > b.1) m →
          (((smNext m).1 = none ↔ ∀ e ∈ m, e.2 = [])
           ∧ ∀ k t q, (k, t :: q) ∈ m → (∀ e ∈ m, e.1 > k → e.2 = []) →
               (smNext m).1 = some t) := by
  intro qs
  refine ⟨?_, ?_, ?_⟩
  · rw [pmqNext]
    constructor
    · intro h s hs
      exact (pmqScan_fst_eq_none_iff qs.reverse).mp h s (List.mem_reverse.mpr hs)
    · intro h
      exact (pmqScan_fst_eq_none_iff qs.reverse).mpr
        (fun s hs => h s (List.mem_reverse.mp hs))
  · intro i t q hi htop
    exact pmqNext_at_top hi htop
  · intro m hsorted
    refine ⟨smNext_fst_eq_none_iff m, ?_⟩
    intro k t q hmem hemp
    obtain ⟨m1, m2, hm⟩ := List.append_of_mem hmem
    subst hm
    have hm1 : ∀ e ∈ m1, e.2 = [] := by
      intro e he
      refine hemp e (List.mem_append_left _ he) ?_
      have := (List.pairwise_append.mp hsorted).2.2 e he (k, t :: q)
        (List.mem_cons_self _ _)
      simpa using this
    rw [smNext_append hm1]

/-- Claim C1 witness: a concrete array state whose highest non-empty level
is 0 (level 1 is null, level 2 does not exist), and a concrete descending
map state whose highest non-empty key is 5. -/
theorem C1_multiqueue_next_highest_first_witness :
    pmqNext [some [⟨7, 0, 0⟩], none] = (some ⟨7, 0, 0⟩, [some [], none])
    ∧ (smNext [(9, []), (5, [⟨1, 5, 0⟩])]).1 = some ⟨1, 5, 0⟩ := by
  constructor
  · have h := (C1_multiqueue_next_highest_first [some [⟨7, 0, 0⟩], none]).2.1
      0 ⟨7, 0, 0⟩ [] rfl (by
        intro j hj
        match j, hj with
        | 1, _ => exact rfl
        | (n + 2), _ =>
          show slotEmpty (subAt [some [⟨7, 0, 0⟩], none] (n + 2))
          rw [subAt, List.getD_eq_default _ _ (by simp)]
          exact rfl)
    simpa using h
  · exact ((C1_multiqueue_next_highest_first []).2.2
      [(9, []), (5, [⟨1, 5, 0⟩])] (by decide)).2 5 ⟨1, 5, 0⟩ []
      (by decide) (by decide)

/-- Claim C4: the idle-aware termination handler and the idle-aware
preemptive timer-interrupt handler always return a non-null task on a
terminating call: when the policy's `next()` yields null (empty ready
queue) the idle task is returned, and null is never propagated. -/
theorem C4_idle_aware_handlers_never_null :
    ∀ {σ τ : Type} [DecidableEq τ] (P : PolicyI σ τ) (idle : τ) (s : σ)
      (current : τ),
      (ttRunNextIdle P idle s).1 ≠ none
      ∧ ((P.next s).1 = none → (ttRunNextIdle P idle s).1 = some idle)
      ∧ (tiRunNextIdle P idle s current).1 ≠ none
      ∧ ((P.next (if current = idle then s else P.ready s current)).1 = none →
          (tiRunNextIdle P idle s current).1 = some idle) := by
  intro σ τ _ P idle s current
  refine ⟨?_, ?_, ?_, ?_⟩
  · rw [ttRunNextIdle]
    match (P.next s).1 with
    | none => simp
    | some t => simp
  · intro h
    rw [ttRunNextIdle]
    rw [h]
  · rw [tiRunNextIdle]
    match (P.next (if current = idle then s else P.ready s current)).1 with
    | none => simp
    | some t => simp
  · intro h
    rw [tiRunNextIdle]
    rw [h]

/-- Claim C4 witness: the FIFO policy with an empty ready queue; both
handlers return the idle task 0 rather than null. -/
theorem C4_idle_aware_handlers_never_null_witness :
    (fifoPolicy.next ([] : List Nat)).1 = none
    ∧ (ttRunNextIdle fifoPolicy 0 ([] : List Nat)).1 = some 0
    ∧ (tiRunNextIdle fifoPolicy 0 ([] : List Nat) 0).1 = some 0 := by
  refine ⟨rfl, ?_, ?_⟩
  · exact (C4_idle_aware_handlers_never_null fifoPolicy 0 [] 0).2.1 rfl
  · exact (C4_idle_aware_handlers_never_null fifoPolicy 0 [] 0).2.2.2 rfl

/-- Claim C6: the demote-and-recharge quantum handler demotes the current
task exactly once, allocates it the ticks the quantum specifier assigns to
its new (post-demotion) priority, enqueues exactly that task, and returns
the policy's `next()`. -/
theorem C6_demote_then_recharge_then_enqueue :
    ∀ {σ : Type} (P : PolicyI σ QTask) (spec : Nat → Nat) (s : σ)
      (cur : QTask),
      tqRunNextDemoteRecharge P spec s cur =
        P.next (P.ready s (demotedOnceRecharged spec cur))
      ∧ (demotedOnceRecharged spec cur).id = cur.id
      ∧ (demotedOnceRecharged spec cur).ticks =
          spec (demotedOnceRecharged spec cur).priority
      ∧ (cur.priority > 1 →
          (demotedOnceRecharged spec cur).priority = cur.priority - 1)
      ∧ (cur.priority ≤ 1 →
          (demotedOnceRecharged spec cur).priority = cur.priority) := by
  intro σ P spec s cur
  have htask : cur.demote.allocateTicks (spec cur.demote.priority) =
      demotedOnceRecharged spec cur := by
    have hid : cur.demote.id = cur.id := by
      rw [QTask.demote]
      split <;> rfl
    rw [demotedOnceRecharged, QTask.allocateTicks]
    rw [← hid]
  refine ⟨?_, rfl, rfl, ?_, ?_⟩
  · rw [tqRunNextDemoteRecharge, htask]
  · intro h
    show cur.demote.priority = cur.priority - 1
    rw [QTask.demote, if_pos (by omega)]
  · intro h
    show cur.demote.priority = cur.priority
    rw [QTask.demote, if_neg (by omega)]

/-- Claim C6 witness: a task at priority 3 is demoted to 2 and recharged
with the specifier's quantum for level 2 (here `10 * 2`). -/
theorem C6_demote_then_recharge_then_enqueue_witness :
    (3 : Nat) > 1
    ∧ (demotedOnceRecharged (fun p => 10 * p) ⟨4, 3, 0⟩).priority = 3 - 1
    ∧ (demotedOnceRecharged (fun p => 10 * p) ⟨4, 3, 0⟩).ticks = 20 := by
  refine ⟨by decide, ?_, by decide⟩
  exact (C6_demote_then_recharge_then_enqueue fifoPolicy (fun p => 10 * p)
    ([] : List QTask) ⟨4, 3, 0⟩).2.2.2.1 (by decide)

/-- Claim C8: the yield handler enqueues the yielded task at the back of
the FIFO ready queue and returns the queue's `next()`; when the ready
queue was empty at the call, the yielded task itself is returned
(ready-then-next round-trips). -/
theorem C8_yield_enqueue_then_next :
    ∀ {τ : Type} (q : List τ) (cur : τ),
      tyRunNext q cur = ((q ++ [cur]).head?, (q ++ [cur]).tail)
      ∧ (tyRunNext q cur).1 ≠ none
      ∧ (q = [] → tyRunNext q cur = (some cur, [])) := by
  intro τ q cur
  refine ⟨?_, ?_, ?_⟩
  · rw [tyRunNext, fifoReady, fifoNext_append_singleton]
  · rw [tyRunNext, fifoReady]
    cases q <;> simp [fifoNext]
  · intro h
    subst h
    rfl

/-- Claim C8 witness: yielding with an empty ready queue returns the
yielded task 7 itself. -/
theorem C8_yield_enqueue_then_next_witness :
    ([] : List Nat) = [] ∧ tyRunNext ([] : List Nat) 7 = (some 7, []) :=
  ⟨rfl, (C8_yield_enqueue_then_next [] 7).2.2 rfl⟩

/-- Claim C9: the killed handler asserts (aborts) exactly when
`current == task` — including the call with both arguments null; when
`current ≠ task`, an intermediate call (null `current`) removes the task
and returns null, and a terminating call returns `current`, removing the
task when it is non-null. -/
theorem C9_killed_assert_and_protocol :
    ∀ {τ : Type} [DecidableEq τ] (q : List τ) (c t : Option τ),
      (tkKeepRunningCurrent q c t = Except.error () ↔ c = t)
      ∧ tkKeepRunningCurrent q none none = Except.error ()
      ∧ (c = none → c ≠ t →
          tkKeepRunningCurrent q c t = Except.ok (none, removeOpt q t))
      ∧ (∀ cur, c = some cur → c ≠ t →
          tkKeepRunningCurrent q c t = Except.ok (some cur, removeOpt q t)) := by
  intro τ _ q c t
  refine ⟨?_, ?_, ?_, ?_⟩
  · rw [tkKeepRunningCurrent]
    constructor
    · intro h
      by_contra hne
      rw [if_neg hne] at h
      split at h <;> exact Except.noConfusion h
    · intro h
      rw [if_pos h]
  · rfl
  · intro hc hne
    subst hc
    rw [tkKeepRunningCurrent, if_neg hne, if_pos rfl]
  · intro cur hc hne
    subst hc
    rw [tkKeepRunningCurrent, if_neg hne, if_neg (by exact fun h => Option.noConfusion h)]

/-- Claim C9 witness: killing task 1 while task 3 runs removes 1 from the
queue and keeps 3 running; an intermediate call removes only; the
self-kill call aborts. -/
theorem C9_killed_assert_and_protocol_witness :
    (some 3 : Option Nat) ≠ some 1
    ∧ tkKeepRunningCurrent [1, 2] (some 3) (some 1) = Except.ok (some 3, [2])
    ∧ tkKeepRunningCurrent [1, 2] none (some 1) = Except.ok (none, [2])
    ∧ tkKeepRunningCurrent ([1, 2] : List Nat) (some 1) (some 1) =
        Except.error () := by
  refine ⟨by decide, ?_, ?_, ?_⟩
  · have h := (C9_killed_assert_and_protocol [1, 2] (some 3) (some 1)).2.2.2
      3 rfl (by decide)
    simpa [removeOpt] using h
  · have h := (C9_killed_assert_and_protocol [1, 2] none (some 1)).2.2.1
      rfl (by decide)
    simpa [removeOpt] using h
  · exact (C9_killed_assert_and_protocol [1, 2] (some 1) (some 1)).1.mpr rfl

/-- Claim C10: the idle-aware quantum-bookkeeping timer-interrupt handler,
called with the idle task as `current`, performs no `tick()` — the idle
task's fields are untouched (the idle record is returned verbatim when
the queue is empty) — and returns the next ready task from the queue, or
the idle task when the queue yields none. -/
theorem C10_idle_current_no_tick :
    ∀ (spec : Nat → Nat) (qs : List (Option (List QTask))) (idle : QTask),
      mlfqOnTimerInterrupt spec qs idle idle =
        (some (((pmqNext qs).1).getD idle), (pmqNext qs).2)
      ∧ ((pmqNext qs).1 = none →
          (mlfqOnTimerInterrupt spec qs idle idle).1 = some idle)
      ∧ (∀ t, (pmqNext qs).1 = some t →
          (mlfqOnTimerInterrupt spec qs idle idle).1 = some t) := by
  intro spec qs idle
  have heq : mlfqOnTimerInterrupt spec qs idle idle =
      (some (((pmqNext qs).1).getD idle), (pmqNext qs).2) := by
    rw [mlfqOnTimerInterrupt, if_pos rfl]
    match h : (pmqNext qs).1 with
    | none => simp [h]
    | some t => simp [h]
  refine ⟨heq, ?_, ?_⟩
  · intro h
    simp [heq, h]
  · intro t h
    simp [heq, h]

/-- Claim C10 witness: with an empty multi-queue the handler returns the
idle task with its priority 9 and ticks 7 unchanged; with a ready task 2
it returns that task. -/
theorem C10_idle_current_no_tick_witness :
    (mlfqOnTimerInterrupt (fun _ => 5) [none] ⟨0, 9, 7⟩ ⟨0, 9, 7⟩).1 =
      some ⟨0, 9, 7⟩
    ∧ (mlfqOnTimerInterrupt (fun _ => 5) [some [⟨2, 0, 0⟩]] ⟨0, 9, 7⟩
        ⟨0, 9, 7⟩).1 = some ⟨2, 0, 0⟩ := by
  constructor
  · exact (C10_idle_current_no_tick (fun _ => 5) [none] ⟨0, 9, 7⟩).2.1 rfl
  · exact (C10_idle_current_no_tick (fun _ => 5) [some [⟨2, 0, 0⟩]]
      ⟨0, 9, 7⟩).2.2 ⟨2, 0, 0⟩ rfl

/-- Claim C2 counterexample: four tasks of equal rank 5 pushed into the
STL priority-queue implementation in identifier order 1, 2, 3, 4 are
dequeued as 1, 3, 2, 4 — task 3 leaves before task 2 although 2 was
inserted first with the same rank, so the first-come-first-served
tie-break fails for `StlPriorityQueueImp`. -/
theorem C2_counterexample_heap_not_fcfs :
    pqDrain (pqReady (pqReady (pqReady (pqReady [] ⟨1, 5⟩) ⟨2, 5⟩) ⟨3, 5⟩) ⟨4, 5⟩) =
      [⟨1, 5⟩, ⟨3, 5⟩, ⟨2, 5⟩, ⟨4, 5⟩]
    ∧ (⟨2, 5⟩ : STask).rank = (⟨3, 5⟩ : STask).rank
    ∧ List.indexOf (⟨3, 5⟩ : STask)
        (pqDrain (pqReady (pqReady (pqReady (pqReady [] ⟨1, 5⟩) ⟨2, 5⟩) ⟨3, 5⟩) ⟨4, 5⟩))
      < List.indexOf (⟨2, 5⟩ : STask)
        (pqDrain (pqReady (pqReady (pqReady (pqReady [] ⟨1, 5⟩) ⟨2, 5⟩) ⟨3, 5⟩) ⟨4, 5⟩)) := by
  refine ⟨by decide, rfl, by decide⟩

/-- Claim C2 amended: for the linked-list implementation of the
prioritized single queue, two tasks of equal rank inserted via `ready()`
are dequeued by `next()` in their insertion order; the STL priority-queue
implementation does not guarantee this (its binary heap is not stable),
as the counterexample shows. -/
theorem C2_amended_linked_list_fcfs :
    ∀ (q : List STask) (a b : STask), a.rank = b.rank →
      List.Sublist [a, b] (psqDrain (llInsert b (llInsert a q))) := by
  have hdrainAux : ∀ (fuel : Nat) (l : List STask), l.length ≤ fuel →
      psqDrain.psqDrainAux fuel l = l := by
    intro fuel
    induction fuel with
    | zero =>
      intro l hl
      have hnil : l = [] := List.length_eq_zero.mp (by omega)
      subst hnil
      rfl
    | succ n ih =>
      intro l hl
      match l with
      | [] => rfl
      | t :: q =>
        have hstep : psqDrain.psqDrainAux (n + 1) (t :: q) =
            t :: psqDrain.psqDrainAux n q := rfl
        rw [hstep, ih q (by simp only [List.length_cons] at hl; omega)]
  have hdrain : ∀ l : List STask, psqDrain l = l := fun l =>
    hdrainAux l.length l le_rfl
  have hsplit : ∀ (t : STask) (q : List STask), ∃ xs ys, q = xs ++ ys
      ∧ llInsert t q = xs ++ t :: ys ∧ ∀ x ∈ xs, ¬ t.rank > x.rank := by
    intro t q
    induction q with
    | nil => exact ⟨[], [], rfl, rfl, by simp⟩
    | cons h rest ih =>
      by_cases hc : t.rank > h.rank
      · exact ⟨[], h :: rest, rfl, by rw [llInsert, if_pos hc]; rfl, by simp⟩
      · obtain ⟨xs, ys, hq, hins, hxs⟩ := ih
        refine ⟨h :: xs, ys, by rw [hq]; rfl, ?_, ?_⟩
        · rw [llInsert, if_neg hc, hins]
          rfl
        · intro x hx
          rcases List.mem_cons.mp hx with hx | hx
          · rwa [hx]
          · exact hxs x hx
  have hfront : ∀ (t : STask) (xs l : List STask),
      (∀ x ∈ xs, ¬ t.rank > x.rank) → llInsert t (xs ++ l) = xs ++ llInsert t l := by
    intro t xs
    induction xs with
    | nil => intro l _; rfl
    | cons h rest ih =>
      intro l hx
      rw [List.cons_append, llInsert, if_neg (hx h (List.mem_cons_self h rest))]
      rw [ih l (fun x hmem => hx x (List.mem_cons_of_mem h hmem))]
      rfl
  have hmem : ∀ (t : STask) (l : List STask), t ∈ llInsert t l := by
    intro t l
    induction l with
    | nil => exact List.mem_singleton.mpr rfl
    | cons h rest ih =>
      rw [llInsert]
      split
      · exact List.mem_cons_self t _
      · exact List.mem_cons_of_mem h ih
  intro q a b hrank
  obtain ⟨xs, ys, hq, hins, hxs⟩ := hsplit a q
  have hxsb : ∀ x ∈ xs, ¬ b.rank > x.rank := by
    intro x hx
    rw [← hrank]
    exact hxs x hx
  rw [hdrain, hins, hfront b xs (a :: ys) hxsb, llInsert, if_neg (by omega)]
  have hsub : List.Sublist [a, b] (a :: llInsert b ys) :=
    List.Sublist.cons₂ a (List.singleton_sublist.mpr (hmem b ys))
  exact hsub.trans (List.sublist_append_right xs (a :: llInsert b ys))

/-- Claim C2 witness: two equal-rank tasks inserted into an empty
linked-list queue leave in insertion order. -/
theorem C2_amended_linked_list_fcfs_witness :
    (⟨1, 5⟩ : STask).rank = (⟨2, 5⟩ : STask).rank
    ∧ List.Sublist [(⟨1, 5⟩ : STask), ⟨2, 5⟩]
        (psqDrain (llInsert ⟨2, 5⟩ (llInsert ⟨1, 5⟩ []))) :=
  ⟨rfl, C2_amended_linked_list_fcfs [] ⟨1, 5⟩ ⟨2, 5⟩ rfl⟩

/-- Claim C3 counterexample: current task (id 1, priority 1); task id 2
was raised from priority 2 to 5 while queued at level 2; a third ready
task id 3 sits at level 9. Task 2 now outranks the current task, yet the
handler dispatches task 3, not task 2 — the parenthetical "the next
dispatched task is task" fails. -/
theorem C3_counterexample_third_task_dispatched :
    (⟨2, 5, 0⟩ : QTask).priority > (⟨1, 1, 0⟩ : QTask).priority
    ∧ (tpcBalance
        [none, none, some [⟨2, 5, 0⟩], none, none, some [], none, none, none,
          some [⟨3, 9, 0⟩]]
        ⟨1, 1, 0⟩ ⟨2, 5, 0⟩ 2).1 = some ⟨3, 9, 0⟩
    ∧ some (⟨3, 9, 0⟩ : QTask) ≠ some (⟨2, 5, 0⟩ : QTask) := by
  refine ⟨by decide, by decide, by decide⟩

/-- Claim C7 counterexample: cooperative idle-aware unblock with the idle
task (0) running and task 2 already in the FIFO ready queue; unblocking
task 3 dispatches task 2, not the unblocked task — "the returned task is
task" fails when the queue was non-empty. -/
theorem C7_counterexample_queue_head_dispatched :
    (tubCoopIdle ([2] : List Nat) 0 0 3).1 = some 2 ∧ (2 : Nat) ≠ 3 := by
  refine ⟨by decide, by decide⟩

/-- Claim C7 amended: on a terminating call with both arguments non-null
the cooperative idle-aware unblock handler enqueues the unblocked task; if
`current` is not the idle task it returns `current`, and if `current` is
the idle task it returns the queue's `next()` — which is the unblocked
task exactly when the ready queue was empty before the call. -/
theorem C7_amended_unblock_cooperative_idle :
    ∀ {τ : Type} [DecidableEq τ] (q : List τ) (idle cur task : τ),
      (cur ≠ idle → tubCoopIdle q idle cur task = (some cur, q ++ [task]))
      ∧ (cur = idle → tubCoopIdle q idle cur task = fifoNext (q ++ [task]))
      ∧ (cur = idle → q = [] → (tubCoopIdle q idle cur task).1 = some task) := by
  intro τ _ q idle cur task
  refine ⟨?_, ?_, ?_⟩
  · intro h
    rw [tubCoopIdle, if_neg h]
    rfl
  · intro h
    rw [tubCoopIdle, if_pos h]
    rfl
  · intro h hq
    subst hq
    rw [tubCoopIdle, if_pos h]
    rfl

/-- Claim C7 witness: with an empty queue and the idle task 0 running,
unblocking task 3 dispatches task 3; with task 9 running, task 9 keeps
the processor. -/
theorem C7_amended_unblock_cooperative_idle_witness :
    (tubCoopIdle ([] : List Nat) 0 0 3).1 = some 3
    ∧ (tubCoopIdle ([] : List Nat) 0 9 3) = (some 9, [3]) := by
  constructor
  · exact (C7_amended_unblock_cooperative_idle [] 0 0 3).2.2 rfl rfl
  · exact (C7_amended_unblock_cooperative_idle [] 0 9 3).1 (by decide)

/-- Claim C5 counterexample: the repository's MLFQ test configuration
(quantum 1 at level 3, quantum 2 at level 2, floor 1). Task 1 is admitted
at priority 3 (receiving 1 tick), dispatched, and then receives `k = 2`
consecutive timer interrupts. The first interrupt drains its quantum:
demotion to level 2 with 2 fresh ticks. The second only decrements. Its
priority is then 2, while the claimed formula
`max(floor, initial - floor(k / q(p))) = max(1, 3 - 2 / 1) = 1`. -/
theorem C5_counterexample_nonconstant_quantum :
    (mlfqRun qspecSimple ⟨0, 0, 0⟩ 2
        ((pmqNext (mlfqReady qspecSimple [none, none, none, none] ⟨1, 3, 0⟩)).2,
         ((pmqNext (mlfqReady qspecSimple [none, none, none, none]
            ⟨1, 3, 0⟩)).1).getD ⟨0, 0, 0⟩)).2.priority = 2
    ∧ max 1 (3 - 2 / qspecSimple 3) = 1
    ∧ (2 : Nat) ≠ 1 := by
  refine ⟨by decide, by decide, by decide⟩

/-- Claim C5 amended: in the MLFQ configuration with a quantum specifier
that is constant across priority levels (`q(p) = q` for every level), a
solo task of initial priority `p0` holding a fresh quantum that receives
`k` consecutive timer interrupts ends at priority
`max(floor, p0 - floor(k / q))` with floor 1, and its ticks are reset to
the configured quantum on each demotion (`q - k mod q` ticks remain). With
a non-constant specifier the formula fails, as the counterexample shows. -/
theorem C5_amended_constant_quantum :
    ∀ (q p0 k : Nat) (qs : List (Option (List QTask))) (idle : QTask),
      1 ≤ q → q < u32Mod → idle.id ≠ 1 → 1 ≤ p0 → p0 < qs.length →
      allEmpty qs →
      (mlfqRun (fun _ => q) idle k (qs, ⟨1, p0, q⟩)).2 =
        ⟨1, max 1 (p0 - k / q), q - k % q⟩ := by
  intro q p0 k qs idle hq hqlt hid hp0 hlen hE
  have h := (mlfqRun_solo q idle hq hqlt hid k p0 q qs hp0 hlen hE hq le_rfl).1
  rw [h]
  by_cases hkq : k < q
  · rw [if_pos hkq, if_pos hkq, Nat.div_eq_of_lt hkq, Nat.mod_eq_of_lt hkq,
      Nat.sub_zero, Nat.max_eq_right (by omega)]
  · rw [if_neg hkq, if_neg hkq]
    have hcancel : k - q + q = k := Nat.sub_add_cancel (by omega)
    have hdiv : k / q = (k - q) / q + 1 := by
      conv_lhs => rw [← hcancel]
      rw [Nat.add_div_right _ (by omega)]
    have hmod : k % q = (k - q) % q := by
      conv_lhs => rw [← hcancel]
      rw [Nat.add_mod_right]
    rw [hdiv, hmod]

/-- Claim C5 witness: constant quantum 2, initial priority 3, five
consecutive interrupts: the task ends at priority
`max(1, 3 - 5 / 2) = 1` with `2 - 5 mod 2 = 1` tick left. -/
theorem C5_amended_constant_quantum_witness :
    (1 ≤ 2 ∧ 2 < u32Mod ∧ (0 : Nat) ≠ 1 ∧ 1 ≤ 3
      ∧ 3 < ([none, none, none, none] :
          List (Option (List QTask))).length
      ∧ allEmpty [none, none, none, none])
    ∧ (mlfqRun (fun _ => 2) ⟨0, 0, 0⟩ 5
        ([none, none, none, none], ⟨1, 3, 2⟩)).2 =
      ⟨1, max 1 (3 - 5 / 2), 2 - 5 % 2⟩
    ∧ max 1 (3 - 5 / 2) = 1 := by
  refine ⟨⟨by decide, by decide, by decide, by decide, by decide,
    allEmpty_of_all_none (by decide)⟩, ?_, by decide⟩
  exact C5_amended_constant_quantum 2 3 5 [none, none, none, none] ⟨0, 0, 0⟩
    (by decide) (by decide) (by decide) (by decide) (by decide)
    (allEmpty_of_all_none (by decide))

/-- A list holding at most one element satisfying `p` has none left after
`eraseP p`. -/
theorem eraseP_mem_not_pred {l : List QTask} {p : QTask → Bool} {x : QTask}
    (hle : (l.filter p).length ≤ 1) (hx : x ∈ l.eraseP p) : p x = false := by
  induction l with
  | nil => simp at hx
  | cons h rest ih =>
    cases hp : p h with
    | true =>
      rw [List.eraseP_cons_of_pos hp] at hx
      have hfil : (rest.filter p).length = 0 := by
        rw [List.filter_cons_of_pos hp] at hle
        simp only [List.length_cons] at hle
        omega
      have hnone : ∀ a ∈ rest, ¬ p a = true :=
        List.filter_eq_nil_iff.mp (List.length_eq_zero.mp hfil)
      have := hnone x hx
      exact Bool.not_eq_true _ ▸ (by simpa using this)
    | false =>
      rw [List.eraseP_cons_of_neg (by simp [hp])] at hx
      rcases List.mem_cons.mp hx with hxh | hxr
      · rw [hxh]
        exact hp
      · refine ih ?_ hxr
        rwa [List.filter_cons_of_neg (by simp [hp])] at hle

/-- Claim C3 amended: the balance handler re-homes `task` via
`adjustPosition(task, oldPriority)`; when `task`'s priority now exceeds
`current`'s it enqueues `current` and returns `next()` — and the
dispatched task is `task` provided `task` strictly outranks `current` and
every other ready task (by the counterexample, a third higher-priority
ready task is dispatched instead); otherwise it returns `current`. The
well-formedness hypotheses say that tasks other than `task` sit in the
sub-queue of their priority level, and `task`'s stale entry sits only in
the sub-queue of `oldPriority`, at most once. -/
theorem C3_amended_priority_changed_balance :
    ∀ (qs : List (Option (List QTask))) (c t : QTask) (old : Nat),
      tpcBalance qs c t old =
        (if t.priority > c.priority
         then pmqNext (pmqReady (pmqAdjustPosition qs t old) c)
         else (some c, pmqAdjustPosition qs t old))
      ∧ (¬ t.priority > c.priority → (tpcBalance qs c t old).1 = some c)
      ∧ (t.priority > c.priority →
         t.priority < qs.length →
         (∀ i sub, subAt qs i = some sub →
            ∀ x ∈ sub, x.id ≠ t.id → x.priority = i) →
         (∀ i sub, subAt qs i = some sub →
            ∀ x ∈ sub, x.id = t.id → i = old) →
         (∀ i sub, subAt qs i = some sub →
            ∀ x ∈ sub, x.id ≠ t.id → x.priority < t.priority) →
         (∀ sub, subAt qs old = some sub →
            (sub.filter (fun x => x.id == t.id)).length ≤ 1) →
         (tpcBalance qs c t old).1 = some t) := by
  intro qs c t old
  refine ⟨rfl, ?_, ?_⟩
  · intro h
    rw [tpcBalance]
    simp only [if_neg h]
  · intro hgt hlen hwf hold hdom huniq
    set qs1 : List (Option (List QTask)) :=
      match subAt qs old with
      | none => qs
      | some l => qs.set old (some (l.eraseP (fun x => x.id == t.id))) with hqs1
    have hlen1 : qs1.length = qs.length := by
      rw [hqs1]
      match subAt qs old with
      | none => rfl
      | some l => exact List.length_set qs old _
    have hup : ∀ j, t.priority ≤ j → slotEmpty (subAt qs1 j) := by
      intro j hj
      have hgen : ∀ (sub : List QTask), subAt qs j = some sub →
          (∀ x ∈ sub, x.id ≠ t.id) → sub = [] := by
        intro sub hsub hno
        by_contra hne
        obtain ⟨x, hx⟩ := List.exists_mem_of_ne_nil sub hne
        have hx1 := hwf j sub hsub x hx (hno x hx)
        have hx2 := hdom j sub hsub x hx (hno x hx)
        omega
      rcases hcase : subAt qs old with _ | l
      · have hqs1e : qs1 = qs := by rw [hqs1, hcase]
        rw [hqs1e]
        rcases hsub : subAt qs j with _ | sub
        · rfl
        · show sub = []
          refine hgen sub hsub ?_
          intro x hx hid
          have : j = old := hold j sub hsub x hx hid
          rw [this, hcase] at hsub
          exact Option.noConfusion hsub
      · have hqs1e : qs1 = qs.set old (some (l.eraseP (fun x => x.id == t.id))) := by
          rw [hqs1, hcase]
        by_cases hjold : j = old
        · subst hjold
          rw [hqs1e, subAt_set_self (by
            have := subAt_lt_length hcase
            omega)]
          show l.eraseP (fun x => x.id == t.id) = []
          by_contra hne
          obtain ⟨x, hx⟩ := List.exists_mem_of_ne_nil _ hne
          have hxl : x ∈ l := List.mem_of_mem_eraseP hx
          by_cases hid : x.id = t.id
          · have := eraseP_mem_not_pred (huniq l hcase) hx
            simp [hid] at this
          · have hx1 := hwf j l hcase x hxl hid
            have hx2 := hdom j l hcase x hxl hid
            omega
        · rw [hqs1e, subAt_set_ne (fun h => hjold h.symm)]
          rcases hsub : subAt qs j with _ | sub
          · rfl
          · show sub = []
            refine hgen sub hsub ?_
            intro x hx hid
            exact hjold (hold j sub hsub x hx hid)
    have hadj : pmqAdjustPosition qs t old = pmqReady qs1 t := by
      rw [pmqAdjustPosition, hqs1]
    have hready1 : pmqReady qs1 t = qs1.set t.priority (some [t]) := by
      rw [pmqReady, hup t.priority le_rfl]
      rw [List.nil_append]
    have hfin : (pmqNext (pmqReady (pmqAdjustPosition qs t old) c)).1 = some t := by
      have hLlt : t.priority < qs1.length := by omega
      have hsubL : subAt (pmqReady (pmqAdjustPosition qs t old) c) t.priority =
          some [t] := by
        rw [hadj, hready1, pmqReady, subAt_set_ne (by omega),
          subAt_set_self hLlt]
      have htopL : ∀ j, t.priority < j →
          slotEmpty (subAt (pmqReady (pmqAdjustPosition qs t old) c) j) := by
        intro j hj
        rw [hadj, hready1, pmqReady, subAt_set_ne (by omega),
          subAt_set_ne (by omega)]
        exact hup j (by omega)
      rw [pmqNext_at_top hsubL htopL]
    rw [tpcBalance]
    simp only [if_pos hgt]
    exact hfin

/-- Claim C3 witness: task 2's priority was raised from 0 to 2 while it
sat at level 0; the current task 1 has priority 0 and no other task is
ready, so the handler dispatches task 2. -/
theorem C3_amended_priority_changed_balance_witness :
    (⟨2, 2, 0⟩ : QTask).priority > (⟨1, 0, 0⟩ : QTask).priority
    ∧ (tpcBalance [some [⟨2, 2, 0⟩], none, none] ⟨1, 0, 0⟩ ⟨2, 2, 0⟩ 0).1 =
        some ⟨2, 2, 0⟩ := by
  refine ⟨by decide, ?_⟩
  refine (C3_amended_priority_changed_balance
    [some [⟨2, 2, 0⟩], none, none] ⟨1, 0, 0⟩ ⟨2, 2, 0⟩ 0).2.2
    (by decide) (by decide) ?_ ?_ ?_ ?_
  · intro i sub hsub x hx hid
    match i with
    | 0 =>
      have hsub2 : some [(⟨2, 2, 0⟩ : QTask)] = some sub := hsub
      have hs : sub = [⟨2, 2, 0⟩] := (Option.some_inj.mp hsub2).symm
      subst hs
      have hx2 := List.mem_singleton.mp hx
      have hxid : x.id = 2 := by rw [hx2]
      exact absurd hxid hid
    | 1 => exact Option.noConfusion hsub
    | 2 => exact Option.noConfusion hsub
    | (n + 3) => exact Option.noConfusion hsub
  · intro i sub hsub x hx hid
    match i with
    | 0 => rfl
    | 1 => exact Option.noConfusion hsub
    | 2 => exact Option.noConfusion hsub
    | (n + 3) => exact Option.noConfusion hsub
  · intro i sub hsub x hx hid
    match i with
    | 0 =>
      have hsub2 : some [(⟨2, 2, 0⟩ : QTask)] = some sub := hsub
      have hs : sub = [⟨2, 2, 0⟩] := (Option.some_inj.mp hsub2).symm
      subst hs
      have hx2 := List.mem_singleton.mp hx
      have hxid : x.id = 2 := by rw [hx2]
      exact absurd hxid hid
    | 1 => exact Option.noConfusion hsub
    | 2 => exact Option.noConfusion hsub
    | (n + 3) => exact Option.noConfusion hsub
  · intro sub hsub
    have hsub2 : some [(⟨2, 2, 0⟩ : QTask)] = some sub := hsub
    have hs : sub = [⟨2, 2, 0⟩] := (Option.some_inj.mp hsub2).symm
    subst hs
    decide

end Sched
